import Mathlib

/-!
Verification of the adaptive review engine: the Leitner-box spaced-repetition
scheduler (`LeitnerBox` in `src/modules/learning/spaced_rep.rs`), the fuzzy
answer matcher (`FuzzyMatcher` in `src/modules/learning/fuzzy.rs`) and the
session statistics accumulator (`SessionStats` in
`src/modules/learning/models.rs`).

Modelling conventions:
* `usize` values are modelled as `Nat`.
* `f64` values are modelled as `ℚ` (exact real arithmetic; IEEE rounding and
  NaN are outside the model).
* Rust `String`/`&str` values are modelled as `List Char`.
* A `VecDeque` is modelled as a `List`, with the front of the deque at the
  head of the list and `push_back` appending at the end.
* An operation that can panic in Rust (out-of-bounds indexing, `usize`
  subtraction overflow) is modelled as an `Option`-returning function where
  `none` means the Rust code panics; total Rust code is modelled totally.
* The Jaro-Winkler similarity from the external `strsim` crate is not part of
  this repository; it is passed to `check_answer` as an explicit function
  parameter `jw`.
-/

/-- State of `LeitnerBox` (spaced_rep.rs, lines 13-20): a number of boxes,
the boxes themselves (each a FIFO queue of item ids), and the reverse index
`item_locations` mapping each item id to the index of its box. -/
structure LeitnerBox where
  num_boxes : Nat
  boxes : List (List Nat)
  item_locations : List Nat
deriving DecidableEq

/-- `LeitnerBox::new` (spaced_rep.rs, lines 37-52): allocate `num_boxes`
empty boxes, push items `0..num_items` into box 0 in ascending order, and
set every reverse-index entry to 0.  The push loop indexes `boxes[0]`, which
panics (`none`) when `num_boxes == 0` and there is at least one item. -/
def LeitnerBox.new (num_boxes num_items : Nat) : Option LeitnerBox :=
  if num_boxes = 0 ∧ 0 < num_items then none
  else some
    { num_boxes := num_boxes
      boxes := (List.replicate num_boxes ([] : List Nat)).set 0 (List.range num_items)
      item_locations := List.replicate num_items 0 }

/-- Common body of the two answer transitions (spaced_rep.rs, lines 66-74 and
89-96): remove `item_id` from `boxes[current_box]` with
`retain(|&id| id != item_id)`, push it at the back of `boxes[target]`, and
update the reverse index.  Both indexing operations panic (`none`) when the
box index is out of range. -/
def LeitnerBox.moveItem (s : LeitnerBox) (item_id current_box target : Nat) :
    Option LeitnerBox :=
  (s.boxes[current_box]?).bind fun cur =>
    ((s.boxes.set current_box (cur.filter fun x => x != item_id))[target]?).bind fun tgt =>
      some
        { num_boxes := s.num_boxes
          boxes := (s.boxes.set current_box (cur.filter fun x => x != item_id)).set target
            (tgt ++ [item_id])
          item_locations := s.item_locations.set item_id target }

/-- `LeitnerBox::answer_correct` (spaced_rep.rs, lines 61-75): silently
return for an out-of-range id, otherwise move the item from its current box
to box `min(current_box + 1, num_boxes - 1)`.  The subtraction
`num_boxes - 1` overflows (`none`) when `num_boxes == 0`. -/
def LeitnerBox.answer_correct (s : LeitnerBox) (item_id : Nat) : Option LeitnerBox :=
  if s.item_locations.length ≤ item_id then some s
  else (s.item_locations[item_id]?).bind fun current_box =>
    if s.num_boxes = 0 then none
    else s.moveItem item_id current_box (min (current_box + 1) (s.num_boxes - 1))

/-- `LeitnerBox::answer_incorrect` (spaced_rep.rs, lines 84-97): silently
return for an out-of-range id, otherwise move the item from its current box
back to box 0. -/
def LeitnerBox.answer_incorrect (s : LeitnerBox) (item_id : Nat) : Option LeitnerBox :=
  if s.item_locations.length ≤ item_id then some s
  else (s.item_locations[item_id]?).bind fun current_box =>
    s.moveItem item_id current_box 0

/-- Loop body of `LeitnerBox::get_next_item` (spaced_rep.rs, lines 106-114):
scan the boxes in order and return the front of the first non-empty one. -/
def LeitnerBox.nextFromBoxes : List (List Nat) → Option Nat
  | [] => none
  | b :: rest =>
    match b.head? with
    | some x => some x
    | none => LeitnerBox.nextFromBoxes rest

/-- `LeitnerBox::get_next_item` (spaced_rep.rs, lines 106-114). -/
def LeitnerBox.get_next_item (s : LeitnerBox) : Option Nat :=
  LeitnerBox.nextFromBoxes s.boxes

/-- `LeitnerBox::get_item_box` (spaced_rep.rs, lines 117-119):
`self.item_locations.get(item_id).copied()`. -/
def LeitnerBox.get_item_box (s : LeitnerBox) (item_id : Nat) : Option Nat :=
  s.item_locations[item_id]?

/-- `LeitnerBox::get_box_counts` (spaced_rep.rs, lines 122-124). -/
def LeitnerBox.get_box_counts (s : LeitnerBox) : List Nat :=
  s.boxes.map List.length

/-- `LeitnerBox::remaining_items` (spaced_rep.rs, lines 127-129). -/
def LeitnerBox.remaining_items (s : LeitnerBox) : Nat :=
  (s.boxes.map List.length).sum

/-- `LeitnerBox::all_mastered` (spaced_rep.rs, lines 132-134): compare the
length of `boxes[num_boxes - 1]` with the item count.  The subtraction and
the indexing panic (`none`) when `num_boxes == 0`. -/
def LeitnerBox.all_mastered (s : LeitnerBox) : Option Bool :=
  if s.num_boxes = 0 then none
  else (s.boxes[s.num_boxes - 1]?).map fun last =>
    decide (last.length = s.item_locations.length)

/-- `LeitnerBox::reset` (spaced_rep.rs, lines 137-146): clear every box,
then push every item id into box 0 in ascending order and zero the reverse
index.  The push loop indexes `boxes[0]`, which panics (`none`) when there
are no boxes but at least one item. -/
def LeitnerBox.reset (s : LeitnerBox) : Option LeitnerBox :=
  if (s.boxes.map fun _ => ([] : List Nat)).length = 0 ∧ 0 < s.item_locations.length then none
  else some
    { num_boxes := s.num_boxes
      boxes := (s.boxes.map fun _ => ([] : List Nat)).set 0
        (List.range s.item_locations.length)
      item_locations := List.replicate s.item_locations.length 0 }

/-- `LeitnerSummary` (spaced_rep.rs, lines 166-171). -/
structure LeitnerSummary where
  total_items : Nat
  mastered_items : Nat
  in_progress_items : Nat
  box_counts : List Nat
deriving DecidableEq

/-- `LeitnerBox::summary` (spaced_rep.rs, lines 149-161): `mastered` is the
count in the last box (`counts.last().copied().unwrap_or(0)`) and
`in_progress = total - mastered`, a `usize` subtraction which panics
(`none`) when `mastered > total`. -/
def LeitnerBox.summary (s : LeitnerBox) : Option LeitnerSummary :=
  if s.item_locations.length < (s.get_box_counts).getLast?.getD 0 then none
  else some
    { total_items := s.item_locations.length
      mastered_items := (s.get_box_counts).getLast?.getD 0
      in_progress_items := s.item_locations.length - (s.get_box_counts).getLast?.getD 0
      box_counts := s.get_box_counts }

/-- `LeitnerSummary::mastery_percentage` (spaced_rep.rs, lines 175-180):
`0.0` when `total_items == 0`, otherwise `mastered / total * 100`. -/
def LeitnerSummary.mastery_percentage (sm : LeitnerSummary) : ℚ :=
  if sm.total_items = 0 then 0
  else (sm.mastered_items : ℚ) / (sm.total_items : ℚ) * 100

/-- One call of the scheduler's mutating API. -/
inductive LEvent where
  | correct (item_id : Nat)
  | incorrect (item_id : Nat)
  | reset
deriving DecidableEq

/-- Apply one mutating call to a scheduler state. -/
def applyEvent (s : LeitnerBox) : LEvent → Option LeitnerBox
  | LEvent.correct item_id => s.answer_correct item_id
  | LEvent.incorrect item_id => s.answer_incorrect item_id
  | LEvent.reset => s.reset

/-- Run a finite sequence of mutating calls; `none` as soon as one panics. -/
def runEvents (s : LeitnerBox) (es : List LEvent) : Option LeitnerBox :=
  es.foldlM applyEvent s

/-- A state is reachable when it results from `new(num_boxes, num_items)`
with `num_boxes >= 1` followed by a finite sequence of mutating calls. -/
def Reachable (s : LeitnerBox) : Prop :=
  ∃ nb ni es s0, 1 ≤ nb ∧ LeitnerBox.new nb ni = some s0 ∧ runEvents s0 es = some s

/-- Contents of box `b`, read through the total accessor (the empty list for
an out-of-range index). -/
def boxAt (s : LeitnerBox) (b : Nat) : List Nat :=
  (s.boxes[b]?).getD []

/-- Structural invariant of the scheduler: the box vector has exactly
`num_boxes` entries, there is at least one box, the reverse index points
into the box range, and every item id occurs exactly once overall — in the
box the reverse index names — while ids outside `[0, num_items)` occur
nowhere. -/
def SchedInv (s : LeitnerBox) : Prop :=
  s.boxes.length = s.num_boxes ∧
  0 < s.num_boxes ∧
  (∀ (id b : Nat), s.item_locations[id]? = some b → b < s.num_boxes) ∧
  (∀ b, b < s.num_boxes → ∀ id : Nat,
    (boxAt s b).count id = if s.item_locations[id]? = some b then 1 else 0)

/-- What a successful `moveItem` call does, observed per box: the moved item
ends up registered in box `t`, all other reverse-index entries are
untouched, the source box `cb` loses the item, the target box `t` gains it
at its back, and every other box is unchanged. -/
def movedSpec (s s' : LeitnerBox) (id cb t : Nat) : Prop :=
  s'.num_boxes = s.num_boxes ∧
  s'.item_locations[id]? = some t ∧
  (∀ j, j ≠ id → s'.item_locations[j]? = s.item_locations[j]?) ∧
  boxAt s' t = (if t = cb then (boxAt s cb).filter (fun x => x != id) else boxAt s t) ++ [id] ∧
  (cb ≠ t → boxAt s' cb = (boxAt s cb).filter fun x => x != id) ∧
  (∀ b, b ≠ cb → b ≠ t → boxAt s' b = boxAt s b)

/-- The state produced by a successful `moveItem s id cb t`: box `cb` with
`id` retained away, then `id` pushed at the back of box `t`, and the reverse
index updated. -/
def movedState (s : LeitnerBox) (id cb t : Nat) : LeitnerBox :=
  { num_boxes := s.num_boxes
    boxes := (s.boxes.set cb ((boxAt s cb).filter fun x => x != id)).set t
      (((s.boxes.set cb ((boxAt s cb).filter fun x => x != id)).getD t []) ++ [id])
    item_locations := s.item_locations.set id t }

/-- `MatchResult` (fuzzy.rs, lines 10-21). -/
inductive MatchResult where
  | AutoCorrect (score : ℚ)
  | AutoIncorrect (score : ℚ)
  | NeedsUserDecision (score : ℚ) (user_input : List Char) (correct_answer : List Char)
deriving DecidableEq

/-- `FuzzyMatcher` (fuzzy.rs, lines 24-29). -/
structure FuzzyMatcher where
  threshold : ℚ
  decision_margin : ℚ
deriving DecidableEq

/-- Rust `f64::clamp(lo, hi)` on non-NaN values: `lo` below the range, `hi`
above it, the argument itself inside. -/
def rustClamp (x lo hi : ℚ) : ℚ :=
  if x < lo then lo else if hi < x then hi else x

/-- `FuzzyMatcher::new` (fuzzy.rs, lines 46-51): clamp `threshold` into
`[0, 1]` and `decision_margin` into `[0, 0.5]`. -/
def FuzzyMatcher.new (threshold decision_margin : ℚ) : FuzzyMatcher :=
  { threshold := rustClamp threshold 0 1
    decision_margin := rustClamp decision_margin 0 (1 / 2) }

/-- `str::trim` (as used in fuzzy.rs, lines 80-81): drop leading and
trailing whitespace characters. -/
def trimString (s : List Char) : List Char :=
  ((s.dropWhile Char.isWhitespace).reverse.dropWhile Char.isWhitespace).reverse

/-- `str::to_lowercase` (as used in fuzzy.rs, lines 80-81): lowercase every
character. -/
def toLowerString (s : List Char) : List Char :=
  s.map Char.toLower

/-- The normalization applied by `check_answer` (fuzzy.rs, lines 80-81):
`input.trim().to_lowercase()`. -/
def normalizeAnswer (s : List Char) : List Char :=
  toLowerString (trimString s)

/-- `let upper_bound = self.threshold + self.decision_margin` (fuzzy.rs,
line 92). -/
def FuzzyMatcher.upper_bound (m : FuzzyMatcher) : ℚ :=
  m.threshold + m.decision_margin

/-- `let lower_bound = (self.threshold - self.decision_margin).max(0.0)`
(fuzzy.rs, line 93). -/
def FuzzyMatcher.lower_bound (m : FuzzyMatcher) : ℚ :=
  max (m.threshold - m.decision_margin) 0

/-- `FuzzyMatcher::check_answer` (fuzzy.rs, lines 78-106).  The similarity
metric `jaro_winkler` comes from the external `strsim` crate; it is passed
here as the function parameter `jw`, applied to the two normalized strings
exactly as in the source. -/
def FuzzyMatcher.check_answer (m : FuzzyMatcher) (jw : List Char → List Char → ℚ)
    (user_input correct_answer : List Char) : MatchResult :=
  let user_normalized := normalizeAnswer user_input
  let correct_normalized := normalizeAnswer correct_answer
  if user_normalized = correct_normalized then
    MatchResult.AutoCorrect 1
  else
    let score := jw user_normalized correct_normalized
    if m.upper_bound ≤ score then MatchResult.AutoCorrect score
    else if score < m.lower_bound then MatchResult.AutoIncorrect score
    else MatchResult.NeedsUserDecision score user_input correct_answer

/-- `SessionStats` (models.rs, lines 89-99); `Default` derives all-zero
counters. -/
structure SessionStats where
  total_reviewed : Nat
  correct : Nat
  incorrect : Nat
  user_overrides : Nat
deriving DecidableEq

/-- `SessionStats::default()`: every counter starts at zero. -/
def SessionStats.default : SessionStats :=
  { total_reviewed := 0, correct := 0, incorrect := 0, user_overrides := 0 }

/-- `SessionStats::record_correct` (models.rs, lines 111-114). -/
def SessionStats.record_correct (s : SessionStats) : SessionStats :=
  { s with total_reviewed := s.total_reviewed + 1, correct := s.correct + 1 }

/-- `SessionStats::record_incorrect` (models.rs, lines 117-120). -/
def SessionStats.record_incorrect (s : SessionStats) : SessionStats :=
  { s with total_reviewed := s.total_reviewed + 1, incorrect := s.incorrect + 1 }

/-- `SessionStats::record_override` (models.rs, lines 123-131). -/
def SessionStats.record_override (s : SessionStats) (was_correct : Bool) : SessionStats :=
  if was_correct then
    { s with total_reviewed := s.total_reviewed + 1, user_overrides := s.user_overrides + 1,
             correct := s.correct + 1 }
  else
    { s with total_reviewed := s.total_reviewed + 1, user_overrides := s.user_overrides + 1,
             incorrect := s.incorrect + 1 }

/-- One call of the statistics-recording API. -/
inductive StatsEvent where
  | correct
  | incorrect
  | override (was_correct : Bool)
deriving DecidableEq

/-- Apply one recording call to a statistics value. -/
def applyStats (s : SessionStats) : StatsEvent → SessionStats
  | StatsEvent.correct => s.record_correct
  | StatsEvent.incorrect => s.record_incorrect
  | StatsEvent.override b => s.record_override b

/-- Run a finite sequence of recording calls from the default state. -/
def runStats (es : List StatsEvent) : SessionStats :=
  es.foldl applyStats SessionStats.default

/-- The invariant of `SessionStats` used for claim C9. -/
def StatsInv (t : SessionStats) : Prop :=
  t.correct + t.incorrect = t.total_reviewed ∧ t.user_overrides ≤ t.total_reviewed

/-- Reading a box through `getElem?` at an in-range index. -/
theorem boxAt_eq_getElem (s : LeitnerBox) (b : Nat) (h : b < s.boxes.length) :
    s.boxes[b]? = some (boxAt s b) := by
  simp [boxAt, List.getElem?_eq_getElem h]

/-- `retain(|&x| x != a)` removes every occurrence of `a`. -/
theorem count_filter_ne_self (l : List Nat) (a : Nat) :
    (l.filter fun x => x != a).count a = 0 := by
  rw [List.count_eq_zero]
  intro hmem
  rcases List.mem_filter.mp hmem with ⟨-, hx⟩
  simp at hx

/-- `retain(|&x| x != a)` keeps every occurrence of any other value. -/
theorem count_filter_ne_other (l : List Nat) (a j : Nat) (h : j ≠ a) :
    (l.filter fun x => x != a).count j = l.count j :=
  List.count_filter (by simp [h])

/-- Pushing `a` at the back adds one occurrence of `a`. -/
theorem count_append_single_self (l : List Nat) (a : Nat) :
    (l ++ [a]).count a = l.count a + 1 := by
  simp [List.count_append]

/-- Pushing `a` at the back leaves other values' occurrence counts alone. -/
theorem count_append_single_other (l : List Nat) (a j : Nat) (h : j ≠ a) :
    (l ++ [a]).count j = l.count j := by
  rw [List.count_append]
  have hz : List.count j [a] = 0 := by
    rw [List.count_singleton]
    have hne : (a == j) = false := beq_eq_false_iff_ne.mpr fun hh => h hh.symm
    rw [hne]
    simp
  omega

/-- Occurrence count of a value in `List.range n`. -/
theorem count_range_eq (n a : Nat) : (List.range n).count a = if a < n then 1 else 0 := by
  induction n with
  | zero => simp
  | succ n ih =>
    rw [List.range_succ, List.count_append, ih]
    have hsing : List.count a [n] = if a = n then 1 else 0 := by
      rw [List.count_singleton]
      by_cases hc : a = n
      · simp [hc]
      · have hne : (n == a) = false := beq_eq_false_iff_ne.mpr fun hh => hc hh.symm
        rw [hne]
        simp [hc]
    rw [hsing]
    by_cases h2 : a = n
    · subst h2
      simp
    · by_cases h1 : a < n
      · have hlt : a < n + 1 := by omega
        simp [h1, h2, hlt]
      · have hnlt : ¬ a < n + 1 := by omega
        simp [h1, h2, hnlt]

/-- Summing the indicator of a single index over `List.range m`. -/
theorem sum_indicator (m l : Nat) :
    ((List.range m).map fun b => if l = b then 1 else 0).sum = if l < m then 1 else 0 := by
  induction m with
  | zero => simp
  | succ m ih =>
    rw [List.range_succ, List.map_append, List.sum_append, ih]
    by_cases h2 : l = m
    · subst h2
      simp
    · by_cases h1 : l < m
      · have hlt : l < m + 1 := by omega
        simp [h1, h2, hlt]
      · have hnlt : ¬ l < m + 1 := by omega
        simp [h1, h2, hnlt]

/-- Turn a per-index description of the boxes' occurrence counts into a sum
over box indices. -/
theorem sum_map_count (a : Nat) :
    ∀ (L : List (List Nat)) (g : Nat → Nat),
      (∀ b, b < L.length → ((L[b]?).getD []).count a = g b) →
      (L.map fun l => l.count a).sum = ((List.range L.length).map g).sum := by
  intro L
  induction L with
  | nil => intro g _; simp
  | cons x xs ih =>
    intro g h
    have h0 : x.count a = g 0 := by
      have := h 0 (by simp)
      simpa using this
    have hrest := ih (fun b => g (b + 1)) (fun b hb => by
      have := h (b + 1) (by simpa using Nat.succ_lt_succ hb)
      simpa using this)
    simp only [List.map_cons, List.sum_cons, List.length_cons]
    rw [h0, hrest, List.range_succ_eq_map]
    rw [List.map_cons, List.sum_cons, List.map_map]
    rfl

/-- `boxAt` through `List.getD`. -/
theorem boxAt_eq_getD (s : LeitnerBox) (b : Nat) : boxAt s b = s.boxes.getD b [] := by
  rw [boxAt, List.getD_eq_getElem?_getD]

/-- An in-range `getElem?` returns its `getD` value. -/
theorem getElem?_eq_some_getD (L : List (List Nat)) (t : Nat) (h : t < L.length) :
    L[t]? = some (L.getD t []) := by
  rw [List.getD_eq_getElem?_getD, List.getElem?_eq_getElem h]
  rfl

/-- `getD` after `set` at the written index. -/
theorem getD_set_self (L : List (List Nat)) (i : Nat) (a : List Nat) (h : i < L.length) :
    (L.set i a).getD i [] = a := by
  rw [List.getD_eq_getElem?_getD, List.getElem?_set_self h]
  rfl

/-- `getD` after `set` at a different index. -/
theorem getD_set_ne (L : List (List Nat)) (i j : Nat) (a : List Nat) (h : i ≠ j) :
    (L.set i a).getD j [] = L.getD j [] := by
  rw [List.getD_eq_getElem?_getD, List.getElem?_set_ne h, List.getD_eq_getElem?_getD]

/-- Under the invariant, the multiset union of all boxes holds every valid
item id exactly once and no other value. -/
theorem inv_flatten_count (s : LeitnerBox) (hinv : SchedInv s) (a : Nat) :
    s.boxes.flatten.count a = if a < s.item_locations.length then 1 else 0 := by
  obtain ⟨hlen, hpos, hlocb, hcount⟩ := hinv
  rw [List.count_flatten]
  rw [sum_map_count a s.boxes (fun b => if s.item_locations[a]? = some b then 1 else 0)
    (fun b hb => by
      have h := hcount b (by omega) a
      rw [boxAt] at h
      exact h)]
  by_cases ha : a < s.item_locations.length
  · have hsome : s.item_locations[a]? = some (s.item_locations[a]) :=
      List.getElem?_eq_getElem ha
    have hlt : s.item_locations[a] < s.num_boxes := hlocb a _ hsome
    have hfun : (fun b => if s.item_locations[a]? = some b then 1 else 0) =
        (fun b => if s.item_locations[a] = b then 1 else 0) := by
      funext b
      rw [hsome]
      simp
    rw [hfun, hlen, sum_indicator]
    simp [ha, hlt]
  · have hnone : s.item_locations[a]? = none := by
      rw [List.getElem?_eq_none]
      omega
    rw [hnone]
    simp [ha]

/-- Under the invariant, the boxes' joint contents are a permutation of
`0 .. num_items - 1`. -/
theorem inv_boxes_perm (s : LeitnerBox) (hinv : SchedInv s) :
    s.boxes.flatten.Perm (List.range s.item_locations.length) := by
  rw [List.perm_iff_count]
  intro a
  rw [inv_flatten_count s hinv a, count_range_eq]

/-- Total conservation: under the invariant the box counts sum to the item
count. -/
theorem inv_counts_sum (s : LeitnerBox) (hinv : SchedInv s) :
    (s.get_box_counts).sum = s.item_locations.length := by
  have h := (inv_boxes_perm s hinv).length_eq
  rw [List.length_range] at h
  rw [LeitnerBox.get_box_counts, ← List.length_flatten, h]

/-- A successful `moveItem` computes `movedState`. -/
theorem moveItem_eq_movedState (s : LeitnerBox) (id cb t : Nat)
    (hcb : cb < s.boxes.length) (ht : t < s.boxes.length) :
    s.moveItem id cb t = some (movedState s id cb t) := by
  simp only [LeitnerBox.moveItem, movedState, boxAt_eq_getElem s cb hcb, Option.some_bind]
  rw [getElem?_eq_some_getD _ t (by simpa using ht), Option.some_bind]

/-- The moved state satisfies the observational description `movedSpec`. -/
theorem movedState_spec (s : LeitnerBox) (id cb t : Nat)
    (hid : id < s.item_locations.length)
    (hcb : cb < s.boxes.length) (ht : t < s.boxes.length) :
    movedSpec s (movedState s id cb t) id cb t := by
  have hlen1 : (s.boxes.set cb ((boxAt s cb).filter fun x => x != id)).length =
      s.boxes.length := by simp
  refine ⟨rfl, ?_, ?_, ?_, ?_, ?_⟩
  · show (s.item_locations.set id t)[id]? = some t
    exact List.getElem?_set_self hid
  · intro j hj
    show (s.item_locations.set id t)[j]? = s.item_locations[j]?
    exact List.getElem?_set_ne fun hh => hj hh.symm
  · rw [boxAt_eq_getD, movedState]
    rw [getD_set_self _ t _ (by omega)]
    by_cases htc : t = cb
    · rw [if_pos htc, htc, getD_set_self _ cb _ hcb, boxAt_eq_getD]
    · rw [if_neg htc, getD_set_ne _ cb t _ (fun hh => htc hh.symm), boxAt_eq_getD]
  · intro hne
    rw [boxAt_eq_getD, movedState]
    rw [getD_set_ne _ t cb _ (fun hh => hne hh.symm), getD_set_self _ cb _ hcb, boxAt_eq_getD]
  · intro b hbc hbt
    rw [boxAt_eq_getD, movedState]
    rw [getD_set_ne _ t b _ (fun hh => hbt hh.symm), getD_set_ne _ cb b _ (fun hh => hbc hh.symm),
      boxAt_eq_getD]

/-- The moved state keeps the structural invariant. -/
theorem movedState_inv (s : LeitnerBox) (id cb t : Nat) (hinv : SchedInv s)
    (hloc : s.item_locations[id]? = some cb) (ht : t < s.num_boxes) :
    SchedInv (movedState s id cb t) := by
  obtain ⟨hlen, hpos, hlocb, hcount⟩ := hinv
  have hid : id < s.item_locations.length := by
    by_contra hcon
    rw [List.getElem?_eq_none (by omega)] at hloc
    exact Option.noConfusion hloc
  have hcb : cb < s.num_boxes := hlocb id cb hloc
  have hcbl : cb < s.boxes.length := by omega
  have htl : t < s.boxes.length := by omega
  obtain ⟨-, hD, hE, hA, hB, hC⟩ := movedState_spec s id cb t hid hcbl htl
  refine ⟨by simp [movedState, hlen], hpos, ?_, ?_⟩
  · intro j b hjb
    by_cases hj : j = id
    · subst hj
      rw [hD] at hjb
      cases hjb
      exact ht
    · rw [hE j hj] at hjb
      exact hlocb j b hjb
  · intro b hb j
    by_cases hbt : b = t
    · subst hbt
      rw [hA]
      by_cases hji : j = id
      · subst hji
        rw [count_append_single_self, hD]
        have hzero : ((if b = cb then (boxAt s cb).filter (fun x => x != j) else boxAt s b)).count j = 0 := by
          by_cases htc : b = cb
          · rw [if_pos htc]
            exact count_filter_ne_self _ j
          · rw [if_neg htc]
            rw [hcount b hb j, hloc]
            rw [if_neg (fun hh => htc (Option.some.inj hh).symm)]
        rw [hzero]
        simp
      · rw [count_append_single_other _ _ _ hji, hE j hji]
        by_cases htc : b = cb
        · rw [if_pos htc, count_filter_ne_other _ _ _ hji, htc]
          exact hcount cb hcb j
        · rw [if_neg htc]
          exact hcount b hb j
    · by_cases hbc : b = cb
      · subst hbc
        rw [hB hbt]
        by_cases hji : j = id
        · subst hji
          rw [count_filter_ne_self, hD]
          rw [if_neg (fun hh => hbt (Option.some.inj hh).symm)]
        · rw [count_filter_ne_other _ _ _ hji, hE j hji]
          exact hcount b hb j
      · rw [hC b hbc hbt]
        by_cases hji : j = id
        · subst hji
          rw [hcount b hb j, hloc, hD]
          rw [if_neg (fun hh => hbc (Option.some.inj hh).symm),
            if_neg (fun hh => hbt (Option.some.inj hh).symm)]
        · rw [hE j hji]
          exact hcount b hb j

/-- `answer_correct` on an in-range id promotes it to
`min(current_box + 1, num_boxes - 1)`. -/
theorem answer_correct_spec (s : LeitnerBox) (id cb : Nat) (hinv : SchedInv s)
    (hloc : s.item_locations[id]? = some cb) :
    ∃ s', s.answer_correct id = some s' ∧ SchedInv s' ∧
      movedSpec s s' id cb (min (cb + 1) (s.num_boxes - 1)) ∧
      s'.item_locations.length = s.item_locations.length := by
  obtain ⟨hlen, hpos, hlocb, hcount⟩ := hinv
  have hid : id < s.item_locations.length := by
    by_contra hcon
    rw [List.getElem?_eq_none (by omega)] at hloc
    exact Option.noConfusion hloc
  have hcb : cb < s.num_boxes := hlocb id cb hloc
  have ht : min (cb + 1) (s.num_boxes - 1) < s.num_boxes := by omega
  refine ⟨movedState s id cb (min (cb + 1) (s.num_boxes - 1)), ?_, ?_, ?_, by simp [movedState]⟩
  · rw [LeitnerBox.answer_correct, if_neg (by omega), hloc, Option.some_bind,
      if_neg (by omega)]
    exact moveItem_eq_movedState s id cb _ (by omega) (by omega)
  · exact movedState_inv s id cb _ ⟨hlen, hpos, hlocb, hcount⟩ hloc ht
  · exact movedState_spec s id cb _ hid (by omega) (by omega)

/-- `answer_incorrect` on an in-range id demotes it to box 0. -/
theorem answer_incorrect_spec (s : LeitnerBox) (id cb : Nat) (hinv : SchedInv s)
    (hloc : s.item_locations[id]? = some cb) :
    ∃ s', s.answer_incorrect id = some s' ∧ SchedInv s' ∧ movedSpec s s' id cb 0 ∧
      s'.item_locations.length = s.item_locations.length := by
  obtain ⟨hlen, hpos, hlocb, hcount⟩ := hinv
  have hid : id < s.item_locations.length := by
    by_contra hcon
    rw [List.getElem?_eq_none (by omega)] at hloc
    exact Option.noConfusion hloc
  have hcb : cb < s.num_boxes := hlocb id cb hloc
  refine ⟨movedState s id cb 0, ?_, ?_, ?_, by simp [movedState]⟩
  · rw [LeitnerBox.answer_incorrect, if_neg (by omega), hloc, Option.some_bind]
    exact moveItem_eq_movedState s id cb 0 (by omega) (by omega)
  · exact movedState_inv s id cb 0 ⟨hlen, hpos, hlocb, hcount⟩ hloc hpos
  · exact movedState_spec s id cb 0 hid (by omega) (by omega)

/-- An out-of-range id makes `answer_correct` a silent no-op. -/
theorem answer_correct_oob (s : LeitnerBox) (id : Nat)
    (h : s.item_locations.length ≤ id) : s.answer_correct id = some s := by
  rw [LeitnerBox.answer_correct, if_pos h]

/-- An out-of-range id makes `answer_incorrect` a silent no-op. -/
theorem answer_incorrect_oob (s : LeitnerBox) (id : Nat)
    (h : s.item_locations.length ≤ id) : s.answer_incorrect id = some s := by
  rw [LeitnerBox.answer_incorrect, if_pos h]

/-- `answer_correct` succeeds and preserves the invariant for every id. -/
theorem answer_correct_inv (s : LeitnerBox) (id : Nat) (hinv : SchedInv s) :
    ∃ s', s.answer_correct id = some s' ∧ SchedInv s' ∧ s'.num_boxes = s.num_boxes ∧
      s'.item_locations.length = s.item_locations.length := by
  by_cases h : s.item_locations.length ≤ id
  · exact ⟨s, answer_correct_oob s id h, hinv, rfl, rfl⟩
  · have hid : id < s.item_locations.length := by omega
    obtain ⟨s', h1, h2, h3, h4⟩ :=
      answer_correct_spec s id _ hinv (List.getElem?_eq_getElem hid)
    exact ⟨s', h1, h2, h3.1, h4⟩

/-- `answer_incorrect` succeeds and preserves the invariant for every id. -/
theorem answer_incorrect_inv (s : LeitnerBox) (id : Nat) (hinv : SchedInv s) :
    ∃ s', s.answer_incorrect id = some s' ∧ SchedInv s' ∧ s'.num_boxes = s.num_boxes ∧
      s'.item_locations.length = s.item_locations.length := by
  by_cases h : s.item_locations.length ≤ id
  · exact ⟨s, answer_incorrect_oob s id h, hinv, rfl, rfl⟩
  · have hid : id < s.item_locations.length := by omega
    obtain ⟨s', h1, h2, h3, h4⟩ :=
      answer_incorrect_spec s id _ hinv (List.getElem?_eq_getElem hid)
    exact ⟨s', h1, h2, h3.1, h4⟩

/-- The freshly initialized state (`new`, and also `reset`) satisfies the
invariant. -/
theorem inv_fresh (nb ni : Nat) (hnb : 0 < nb) (L : List (List Nat))
    (hL : L = (List.replicate nb ([] : List Nat)).set 0 (List.range ni)) :
    SchedInv ⟨nb, L, List.replicate ni 0⟩ := by
  refine ⟨by simp [hL], hnb, ?_, ?_⟩
  · intro id b hid
    rw [List.getElem?_replicate] at hid
    by_cases hlt : id < ni
    · rw [if_pos hlt] at hid
      cases hid
      exact hnb
    · rw [if_neg hlt] at hid
      exact Option.noConfusion hid
  · intro b hb id
    have hrep : ∀ j, j < nb → (List.replicate nb ([] : List Nat)).getD j [] = [] := by
      intro j hj
      rw [List.getD_eq_getElem?_getD, List.getElem?_replicate, if_pos hj]
      rfl
    show (boxAt ⟨nb, L, List.replicate ni 0⟩ b).count id = _
    rw [boxAt_eq_getD]
    show (L.getD b []).count id = _
    by_cases hb0 : b = 0
    · subst hb0
      rw [hL, getD_set_self _ 0 _ (by simp; omega), count_range_eq,
        List.getElem?_replicate]
      by_cases hlt : id < ni
      · rw [if_pos hlt, if_pos hlt, if_pos rfl]
      · rw [if_neg hlt, if_neg hlt, if_neg (fun hh => Option.noConfusion hh)]
    · rw [hL, getD_set_ne _ 0 b _ (fun hh => hb0 hh.symm), hrep b hb,
        List.getElem?_replicate]
      by_cases hlt : id < ni
      · rw [if_pos hlt, if_neg (fun hh => hb0 (Option.some.inj hh).symm)]
        rfl
      · rw [if_neg hlt, if_neg (fun hh => Option.noConfusion hh)]
        rfl

/-- With at least one box, `new` succeeds and returns the fresh state. -/
theorem new_some (nb ni : Nat) (hnb : 1 ≤ nb) :
    LeitnerBox.new nb ni = some
      ⟨nb, (List.replicate nb ([] : List Nat)).set 0 (List.range ni),
        List.replicate ni 0⟩ := by
  rw [LeitnerBox.new, if_neg (by omega)]

/-- With at least one box, `new` succeeds, and the result satisfies the
invariant with the advertised dimensions. -/
theorem new_inv (nb ni : Nat) (hnb : 1 ≤ nb) :
    ∃ s0, LeitnerBox.new nb ni = some s0 ∧ SchedInv s0 ∧ s0.num_boxes = nb ∧
      s0.item_locations.length = ni := by
  exact ⟨_, new_some nb ni hnb, inv_fresh nb ni (by omega) _ rfl, rfl, by simp⟩

/-- `reset` succeeds under the invariant and restores the fresh state. -/
theorem reset_spec (s : LeitnerBox) (hinv : SchedInv s) :
    ∃ s', s.reset = some s' ∧ SchedInv s' ∧ s'.num_boxes = s.num_boxes ∧
      s'.item_locations.length = s.item_locations.length := by
  obtain ⟨hlen, hpos, -, -⟩ := hinv
  have hmap : (s.boxes.map fun _ => ([] : List Nat)) =
      List.replicate s.num_boxes ([] : List Nat) := by
    rw [List.map_const', hlen]
  refine ⟨⟨s.num_boxes,
      (s.boxes.map fun _ => ([] : List Nat)).set 0 (List.range s.item_locations.length),
      List.replicate s.item_locations.length 0⟩, ?_, ?_, rfl, by simp⟩
  · have hcond : ¬ ((s.boxes.map fun _ => ([] : List Nat)).length = 0 ∧
        0 < s.item_locations.length) := by
      rw [List.length_map]
      omega
    rw [LeitnerBox.reset, if_neg hcond]
  · rw [hmap]
    exact inv_fresh s.num_boxes s.item_locations.length hpos _ rfl

/-- Every single mutating call succeeds and preserves the invariant and the
scheduler dimensions. -/
theorem applyEvent_inv (s : LeitnerBox) (e : LEvent) (hinv : SchedInv s) :
    ∃ s', applyEvent s e = some s' ∧ SchedInv s' ∧ s'.num_boxes = s.num_boxes ∧
      s'.item_locations.length = s.item_locations.length := by
  cases e with
  | correct id => exact answer_correct_inv s id hinv
  | incorrect id => exact answer_incorrect_inv s id hinv
  | reset => exact reset_spec s hinv

/-- Every finite call sequence succeeds and preserves the invariant and the
scheduler dimensions. -/
theorem runEvents_inv (es : List LEvent) :
    ∀ s : LeitnerBox, SchedInv s →
      ∃ s', runEvents s es = some s' ∧ SchedInv s' ∧ s'.num_boxes = s.num_boxes ∧
        s'.item_locations.length = s.item_locations.length := by
  induction es with
  | nil =>
    intro s hinv
    exact ⟨s, rfl, hinv, rfl, rfl⟩
  | cons e es ih =>
    intro s hinv
    obtain ⟨s1, h1, hinv1, hn1, hl1⟩ := applyEvent_inv s e hinv
    obtain ⟨s2, h2, hinv2, hn2, hl2⟩ := ih s1 hinv1
    refine ⟨s2, ?_, hinv2, hn2.trans hn1, hl2.trans hl1⟩
    rw [runEvents, List.foldlM_cons, h1]
    exact h2

/-- Elimination form of `runEvents_inv` for a given final state. -/
theorem runEvents_inv_of (es : List LEvent) (s s' : LeitnerBox) (hinv : SchedInv s)
    (h : runEvents s es = some s') :
    SchedInv s' ∧ s'.num_boxes = s.num_boxes ∧
      s'.item_locations.length = s.item_locations.length := by
  obtain ⟨s2, h2, hrest⟩ := runEvents_inv es s hinv
  rw [h] at h2
  have heq := Option.some.inj h2
  subst heq
  exact hrest

/-- Every reachable state satisfies the invariant. -/
theorem reachable_inv (s : LeitnerBox) (hs : Reachable s) : SchedInv s := by
  obtain ⟨nb, ni, es, s0, hnb, hnew, hrun⟩ := hs
  obtain ⟨s0', hnew', hinv0, -, -⟩ := new_inv nb ni hnb
  rw [hnew] at hnew'
  have heq := Option.some.inj hnew'
  subst heq
  exact (runEvents_inv_of es _ s hinv0 hrun).1

/-- The box scan returns nothing exactly when every box is empty. -/
theorem nextFromBoxes_none_iff : ∀ L : List (List Nat),
    LeitnerBox.nextFromBoxes L = none ↔ ∀ l ∈ L, l = [] := by
  intro L
  induction L with
  | nil => simp [LeitnerBox.nextFromBoxes]
  | cons x xs ih =>
    cases hx : x.head? with
    | some a =>
      have hxne : x ≠ [] := by
        intro hh
        rw [hh] at hx
        exact Option.noConfusion hx
      constructor
      · intro hc
        rw [LeitnerBox.nextFromBoxes, hx] at hc
        exact Option.noConfusion hc
      · intro hall
        exact absurd (hall x (by simp)) hxne
    | none =>
      have hxe : x = [] := by
        cases x with
        | nil => rfl
        | cons y ys => exact Option.noConfusion hx
      subst hxe
      rw [show LeitnerBox.nextFromBoxes ([] :: xs) = LeitnerBox.nextFromBoxes xs from rfl]
      simp [ih]

/-- The box scan returns the front of the first non-empty box. -/
theorem nextFromBoxes_first : ∀ (L : List (List Nat)) (b : Nat), b < L.length →
    (∀ b', b' < b → (L[b']?).getD [] = []) → (L[b]?).getD [] ≠ [] →
    LeitnerBox.nextFromBoxes L = ((L[b]?).getD []).head? := by
  intro L
  induction L with
  | nil =>
    intro b hb
    simp at hb
  | cons x xs ih =>
    intro b hb hprev hne
    cases b with
    | zero =>
      have hx0 : (((x :: xs) : List (List Nat))[0]?).getD [] = x := by simp
      rw [hx0] at hne ⊢
      cases hhead : x.head? with
      | none =>
        have hxe : x = [] := by
          cases x with
          | nil => rfl
          | cons y ys => exact Option.noConfusion hhead
        exact absurd hxe hne
      | some a =>
        rw [LeitnerBox.nextFromBoxes, hhead]
    | succ b =>
      have h0 : x = [] := by
        have h := hprev 0 (Nat.succ_pos b)
        simpa using h
      subst h0
      rw [show LeitnerBox.nextFromBoxes ([] :: xs) = LeitnerBox.nextFromBoxes xs from rfl]
      have hb' : b < xs.length := by simpa using hb
      have hprev' : ∀ b', b' < b → (xs[b']?).getD [] = [] := by
        intro b' hb2
        have h := hprev (b' + 1) (by omega)
        simpa using h
      have hne' : (xs[b]?).getD [] ≠ [] := by simpa using hne
      rw [ih b hb' hprev' hne']
      simp

/-- One `answer_correct` call, on any id, keeps a last-box item registered
in the last box. -/
theorem answer_correct_keep_last (s : LeitnerBox) (j id : Nat) (hinv : SchedInv s)
    (hid : s.item_locations[id]? = some (s.num_boxes - 1)) :
    ∀ s1, s.answer_correct j = some s1 →
      SchedInv s1 ∧ s1.num_boxes = s.num_boxes ∧
        s1.item_locations[id]? = some (s.num_boxes - 1) := by
  intro s1 h1
  by_cases hoob : s.item_locations.length ≤ j
  · rw [answer_correct_oob s j hoob] at h1
    have heq := Option.some.inj h1
    subst heq
    exact ⟨hinv, rfl, hid⟩
  · have hj : j < s.item_locations.length := by omega
    obtain ⟨s', hs', hinv', hmov, -⟩ :=
      answer_correct_spec s j _ hinv (List.getElem?_eq_getElem hj)
    rw [hs'] at h1
    have heq := Option.some.inj h1
    subst heq
    obtain ⟨hnb, hD, hE, -, -, -⟩ := hmov
    refine ⟨hinv', hnb, ?_⟩
    by_cases hji : j = id
    · subst hji
      have hcb : s.item_locations[j] = s.num_boxes - 1 := by
        have h := List.getElem?_eq_getElem hj
        rw [hid] at h
        exact (Option.some.inj h).symm
      rw [hD, hcb]
      congr 1
      omega
    · rw [hE id (fun hh => hji hh.symm)]
      exact hid

/-- Any number of further `answer_correct` calls, on any ids, keeps a
last-box item registered in the last box. -/
theorem foldlM_correct_keep_last (ids : List Nat) :
    ∀ s : LeitnerBox, SchedInv s → ∀ id : Nat,
      s.item_locations[id]? = some (s.num_boxes - 1) →
      ∀ s2 : LeitnerBox, List.foldlM LeitnerBox.answer_correct s ids = some s2 →
        s2.item_locations[id]? = some (s.num_boxes - 1) := by
  induction ids with
  | nil =>
    intro s hinv id hid s2 h
    have heq := Option.some.inj h
    subst heq
    exact hid
  | cons j ids ih =>
    intro s hinv id hid s2 h
    rw [List.foldlM_cons] at h
    cases h1 : s.answer_correct j with
    | none =>
      rw [h1] at h
      exact Option.noConfusion h
    | some s1 =>
      rw [h1] at h
      obtain ⟨hinv1, hnb1, hid1⟩ := answer_correct_keep_last s j id hinv hid s1 h1
      have hgoal : s1.item_locations[id]? = some (s1.num_boxes - 1) := by
        rw [hid1, hnb1]
      have hres := ih s1 hinv1 id hgoal s2 h
      rw [hnb1] at hres
      exact hres

/-- Under the invariant, `all_mastered` succeeds and compares the last
box's length with the item count. -/
theorem all_mastered_some (s : LeitnerBox) (hinv : SchedInv s) :
    s.all_mastered =
      some (decide ((boxAt s (s.num_boxes - 1)).length = s.item_locations.length)) := by
  obtain ⟨hlen, hpos, -, -⟩ := hinv
  rw [LeitnerBox.all_mastered, if_neg (by omega), boxAt_eq_getElem s _ (by omega)]
  rfl

/-- Under the invariant, `summary` succeeds (no `usize` underflow) and
reports the item count and the last box count. -/
theorem summary_some (s : LeitnerBox) (hinv : SchedInv s) :
    ∃ sm, s.summary = some sm ∧ sm.total_items = s.item_locations.length ∧
      sm.mastered_items = (s.get_box_counts).getLast?.getD 0 := by
  have hsum := inv_counts_sum s hinv
  have hle : (s.get_box_counts).getLast?.getD 0 ≤ s.item_locations.length := by
    cases hl : (s.get_box_counts).getLast? with
    | none => simp
    | some x =>
      have hmem : x ∈ s.get_box_counts := List.mem_of_mem_getLast? hl
      have hx := List.single_le_sum (fun y _ => Nat.zero_le y) x hmem
      rw [hsum] at hx
      simpa using hx
  refine ⟨⟨s.item_locations.length, (s.get_box_counts).getLast?.getD 0,
      s.item_locations.length - (s.get_box_counts).getLast?.getD 0, s.get_box_counts⟩,
    ?_, rfl, rfl⟩
  rw [LeitnerBox.summary, if_neg (by omega)]

/-- A scheduler with zero items has only empty boxes. -/
theorem empty_scheduler_boxes (s : LeitnerBox) (hinv : SchedInv s)
    (h0 : s.item_locations.length = 0) : ∀ l ∈ s.boxes, l = [] := by
  intro l hl
  have hsum := inv_counts_sum s hinv
  rw [LeitnerBox.get_box_counts, h0] at hsum
  have hx : l.length ∈ s.boxes.map List.length := List.mem_map_of_mem _ hl
  have hle := List.single_le_sum (fun y _ => Nat.zero_le y) _ hx
  rw [hsum] at hle
  rw [← List.length_eq_zero]
  omega

/-- Every recording call increases every counter weakly. -/
theorem applyStats_mono (t : SessionStats) (e : StatsEvent) :
    t.total_reviewed ≤ (applyStats t e).total_reviewed ∧
    t.correct ≤ (applyStats t e).correct ∧
    t.incorrect ≤ (applyStats t e).incorrect ∧
    t.user_overrides ≤ (applyStats t e).user_overrides := by
  cases e with
  | correct =>
    refine ⟨?_, ?_, ?_, ?_⟩ <;>
      simp [applyStats, SessionStats.record_correct]
  | incorrect =>
    refine ⟨?_, ?_, ?_, ?_⟩ <;>
      simp [applyStats, SessionStats.record_incorrect]
  | override b =>
    cases b <;> refine ⟨?_, ?_, ?_, ?_⟩ <;>
      simp [applyStats, SessionStats.record_override]

/-- Every recording call preserves the statistics invariant. -/
theorem applyStats_inv (t : SessionStats) (e : StatsEvent) (h : StatsInv t) :
    StatsInv (applyStats t e) := by
  obtain ⟨h1, h2⟩ := h
  cases e with
  | correct =>
    refine ⟨?_, ?_⟩ <;> simp [applyStats, SessionStats.record_correct] <;> omega
  | incorrect =>
    refine ⟨?_, ?_⟩ <;> simp [applyStats, SessionStats.record_incorrect] <;> omega
  | override b =>
    cases b <;> refine ⟨?_, ?_⟩ <;> simp [applyStats, SessionStats.record_override] <;> omega

/-- Every run from the default statistics satisfies the invariant. -/
theorem runStats_inv (es : List StatsEvent) : StatsInv (runStats es) := by
  have hgen : ∀ t, StatsInv t → StatsInv (es.foldl applyStats t) := by
    induction es with
    | nil => intro t ht; exact ht
    | cons e es ih => intro t ht; exact ih _ (applyStats_inv t e ht)
  exact hgen _ ⟨rfl, Nat.le_refl 0⟩

/-- Rust `clamp` stays inside the range. -/
theorem rustClamp_mem (x lo hi : ℚ) (h : lo ≤ hi) :
    lo ≤ rustClamp x lo hi ∧ rustClamp x lo hi ≤ hi := by
  rw [rustClamp]
  split_ifs with h1 h2 <;> constructor <;> linarith

/-- Rust `clamp` below the range. -/
theorem rustClamp_eq_lo (x lo hi : ℚ) (h : x < lo) : rustClamp x lo hi = lo := by
  rw [rustClamp, if_pos h]

/-- Rust `clamp` above the range. -/
theorem rustClamp_eq_hi (x lo hi : ℚ) (h1 : lo ≤ x) (h2 : hi < x) :
    rustClamp x lo hi = hi := by
  rw [rustClamp, if_neg (not_lt.mpr h1), if_pos h2]

/-- Rust `clamp` inside the range. -/
theorem rustClamp_eq_self (x lo hi : ℚ) (h1 : lo ≤ x) (h2 : x ≤ hi) :
    rustClamp x lo hi = x := by
  rw [rustClamp, if_neg (not_lt.mpr h1), if_neg (not_lt.mpr h2)]

/-- For every constructed matcher the band is well ordered. -/
theorem new_lower_le_upper (t d : ℚ) :
    (FuzzyMatcher.new t d).lower_bound ≤ (FuzzyMatcher.new t d).upper_bound := by
  obtain ⟨h1, h2⟩ := rustClamp_mem t 0 1 (by norm_num)
  obtain ⟨h3, h4⟩ := rustClamp_mem d 0 (1 / 2) (by norm_num)
  rw [FuzzyMatcher.lower_bound, FuzzyMatcher.upper_bound,
    show (FuzzyMatcher.new t d).threshold = rustClamp t 0 1 from rfl,
    show (FuzzyMatcher.new t d).decision_margin = rustClamp d 0 (1 / 2) from rfl]
  apply max_le <;> linarith

/-- Three-way case split of `check_answer` on non-matching normalized
inputs, for any matcher whose band is well ordered. -/
theorem check_answer_cases (m : FuzzyMatcher) (jw : List Char → List Char → ℚ)
    (u c : List Char) (h : normalizeAnswer u ≠ normalizeAnswer c)
    (hlu : m.lower_bound ≤ m.upper_bound) :
    (m.check_answer jw u c =
        MatchResult.AutoCorrect (jw (normalizeAnswer u) (normalizeAnswer c)) ↔
      m.upper_bound ≤ jw (normalizeAnswer u) (normalizeAnswer c)) ∧
    (m.check_answer jw u c =
        MatchResult.AutoIncorrect (jw (normalizeAnswer u) (normalizeAnswer c)) ↔
      jw (normalizeAnswer u) (normalizeAnswer c) < m.lower_bound) ∧
    (m.check_answer jw u c =
        MatchResult.NeedsUserDecision (jw (normalizeAnswer u) (normalizeAnswer c)) u c ↔
      (m.lower_bound ≤ jw (normalizeAnswer u) (normalizeAnswer c) ∧
        jw (normalizeAnswer u) (normalizeAnswer c) < m.upper_bound)) := by
  simp only [FuzzyMatcher.check_answer, if_neg h]
  by_cases h1 : m.upper_bound ≤ jw (normalizeAnswer u) (normalizeAnswer c)
  · rw [if_pos h1]
    refine ⟨by simp [h1], ?_, ?_⟩
    · constructor
      · intro hc
        exact absurd hc (by simp)
      · intro hc
        exact absurd hc (not_lt.mpr (by linarith))
    · constructor
      · intro hc
        exact absurd hc (by simp)
      · intro hc
        exact absurd hc.2 (not_lt.mpr h1)
  · rw [if_neg h1]
    by_cases h2 : jw (normalizeAnswer u) (normalizeAnswer c) < m.lower_bound
    · rw [if_pos h2]
      refine ⟨?_, by simp [h2], ?_⟩
      · constructor
        · intro hc
          exact absurd hc (by simp)
        · intro hc
          exact absurd hc h1
      · constructor
        · intro hc
          exact absurd hc (by simp)
        · intro hc
          exact absurd hc.1 (not_le.mpr h2)
    · rw [if_neg h2]
      refine ⟨?_, ?_, ?_⟩
      · constructor
        · intro hc
          exact absurd hc (by simp)
        · intro hc
          exact absurd hc h1
      · constructor
        · intro hc
          exact absurd hc (by simp)
        · intro hc
          exact absurd hc h2
      · simp [not_lt.mp h2, not_le.mp h1]

/-- C1: for every scheduler created by `new(num_boxes, num_items)` with
`num_boxes >= 1` and every finite sequence of mutating calls, every item id
in `[0, num_items)` lies in exactly one box — occurring exactly once there
and not at all in any other box — the reverse index (`get_item_box`) names
exactly that box, and the box counts returned by `get_box_counts` sum to
`num_items` after every call. -/
theorem claim1_invariant_conservation (nb ni : Nat) (es : List LEvent)
    (s0 s : LeitnerBox) (hnb : 1 ≤ nb) (hnew : LeitnerBox.new nb ni = some s0)
    (hrun : runEvents s0 es = some s) :
    (∀ id : Nat, id < ni → ∃ b : Nat, b < s.num_boxes ∧
      s.get_item_box id = some b ∧
      (∀ b' : Nat, b' < s.num_boxes →
        (boxAt s b').count id = if b' = b then 1 else 0)) ∧
    (s.get_box_counts).sum = ni := by
  obtain ⟨s0', hnew', hinv0, hn0, hl0⟩ := new_inv nb ni hnb
  rw [hnew] at hnew'
  have heq := Option.some.inj hnew'
  subst heq
  obtain ⟨hinv, hnbeq, hleq⟩ := runEvents_inv_of es s0 s hinv0 hrun
  have hni : s.item_locations.length = ni := by omega
  obtain ⟨hlen, hpos, hlocb, hcount⟩ := hinv
  refine ⟨?_, ?_⟩
  · intro id hid
    have hid' : id < s.item_locations.length := by omega
    have hloc : s.item_locations[id]? = some (s.item_locations[id]) :=
      List.getElem?_eq_getElem hid'
    refine ⟨s.item_locations[id], hlocb id _ hloc, hloc, ?_⟩
    intro b' hb'
    rw [hcount b' hb' id, hloc]
    by_cases hbb : b' = s.item_locations[id]
    · subst hbb
      simp
    · rw [if_neg (fun hh => hbb (Option.some.inj hh).symm), if_neg hbb]
  · rw [inv_counts_sum s ⟨hlen, hpos, hlocb, hcount⟩, hni]

/-- Witness for C1: `new(2, 2)` followed by `answer_correct 0`. -/
theorem claim1_witness :
    (∀ id : Nat, id < 2 → ∃ b : Nat, b < (⟨2, [[1], [0]], [1, 0]⟩ : LeitnerBox).num_boxes ∧
      (⟨2, [[1], [0]], [1, 0]⟩ : LeitnerBox).get_item_box id = some b ∧
      (∀ b' : Nat, b' < (⟨2, [[1], [0]], [1, 0]⟩ : LeitnerBox).num_boxes →
        (boxAt ⟨2, [[1], [0]], [1, 0]⟩ b').count id = if b' = b then 1 else 0)) ∧
    ((⟨2, [[1], [0]], [1, 0]⟩ : LeitnerBox).get_box_counts).sum = 2 :=
  claim1_invariant_conservation 2 2 [LEvent.correct 0] ⟨2, [[0, 1], []], [0, 0]⟩
    ⟨2, [[1], [0]], [1, 0]⟩ (by decide) (by decide) (by decide)

/-- C2: in every reachable state, `answer_correct` on an item registered in
box `b` removes it from box `b` and re-inserts it at the back of box
`min(b + 1, num_boxes - 1)` while updating only its own reverse-index
entry; `answer_incorrect` removes it from box `b` and re-inserts it at the
back of box 0; and an item registered in the last box stays registered
there under any further sequence of `answer_correct` calls. -/
theorem claim2_promotion_demotion (s : LeitnerBox) (hs : Reachable s) (id b : Nat)
    (hloc : s.item_locations[id]? = some b) :
    (∃ s' : LeitnerBox, s.answer_correct id = some s' ∧
      movedSpec s s' id b (min (b + 1) (s.num_boxes - 1))) ∧
    (∃ s' : LeitnerBox, s.answer_incorrect id = some s' ∧ movedSpec s s' id b 0) ∧
    (b = s.num_boxes - 1 →
      ∀ (ids : List Nat) (s2 : LeitnerBox),
        List.foldlM LeitnerBox.answer_correct s ids = some s2 →
        s2.item_locations[id]? = some (s.num_boxes - 1)) := by
  have hinv := reachable_inv s hs
  refine ⟨?_, ?_, ?_⟩
  · obtain ⟨s', h1, -, h3, -⟩ := answer_correct_spec s id b hinv hloc
    exact ⟨s', h1, h3⟩
  · obtain ⟨s', h1, -, h3, -⟩ := answer_incorrect_spec s id b hinv hloc
    exact ⟨s', h1, h3⟩
  · intro hb ids s2 hrun
    refine foldlM_correct_keep_last ids s hinv id ?_ s2 hrun
    rw [hloc, hb]

/-- Witness for C2: the fresh `new(3, 2)` state, item 0 in box 0. -/
theorem claim2_witness :
    (∃ s' : LeitnerBox,
      (⟨3, [[0, 1], [], []], [0, 0]⟩ : LeitnerBox).answer_correct 0 = some s' ∧
      movedSpec ⟨3, [[0, 1], [], []], [0, 0]⟩ s' 0 0
        (min (0 + 1) ((⟨3, [[0, 1], [], []], [0, 0]⟩ : LeitnerBox).num_boxes - 1))) ∧
    (∃ s' : LeitnerBox,
      (⟨3, [[0, 1], [], []], [0, 0]⟩ : LeitnerBox).answer_incorrect 0 = some s' ∧
      movedSpec ⟨3, [[0, 1], [], []], [0, 0]⟩ s' 0 0 0) ∧
    (0 = (⟨3, [[0, 1], [], []], [0, 0]⟩ : LeitnerBox).num_boxes - 1 →
      ∀ (ids : List Nat) (s2 : LeitnerBox),
        List.foldlM LeitnerBox.answer_correct ⟨3, [[0, 1], [], []], [0, 0]⟩ ids = some s2 →
        s2.item_locations[0]? =
          some ((⟨3, [[0, 1], [], []], [0, 0]⟩ : LeitnerBox).num_boxes - 1)) :=
  claim2_promotion_demotion ⟨3, [[0, 1], [], []], [0, 0]⟩
    ⟨3, 2, [], ⟨3, [[0, 1], [], []], [0, 0]⟩, by decide, by decide, by decide⟩
    0 0 (by decide)

/-- C5: in every reachable state, `get_next_item` (a pure query on the
state) returns the front of the lowest-indexed non-empty box; it returns
`none` exactly when every box is empty, which happens exactly when the
scheduler manages zero items. -/
theorem claim5_next_item (s : LeitnerBox) (hs : Reachable s) :
    (∀ b : Nat, b < s.boxes.length → (∀ b' : Nat, b' < b → boxAt s b' = []) →
      boxAt s b ≠ [] → s.get_next_item = (boxAt s b).head?) ∧
    (s.get_next_item = none ↔ ∀ l ∈ s.boxes, l = []) ∧
    (s.get_next_item = none ↔ s.item_locations.length = 0) := by
  have hinv := reachable_inv s hs
  refine ⟨?_, nextFromBoxes_none_iff s.boxes, ?_⟩
  · intro b hb hprev hne
    exact nextFromBoxes_first s.boxes b hb hprev hne
  · constructor
    · intro h0
      have hall := (nextFromBoxes_none_iff s.boxes).mp h0
      have hsum := inv_counts_sum s hinv
      rw [LeitnerBox.get_box_counts] at hsum
      have hzero : (s.boxes.map List.length).sum = 0 := by
        rw [List.sum_eq_zero_iff]
        intro x hx
        obtain ⟨l, hl, rfl⟩ := List.mem_map.mp hx
        rw [hall l hl]
        rfl
      omega
    · intro h0
      show LeitnerBox.nextFromBoxes s.boxes = none
      rw [nextFromBoxes_none_iff]
      exact empty_scheduler_boxes s hinv h0

/-- Witness for C5: the fresh `new(2, 1)` state. -/
theorem claim5_witness :
    (∀ b : Nat, b < (⟨2, [[0], []], [0]⟩ : LeitnerBox).boxes.length →
      (∀ b' : Nat, b' < b → boxAt ⟨2, [[0], []], [0]⟩ b' = []) →
      boxAt ⟨2, [[0], []], [0]⟩ b ≠ [] →
      (⟨2, [[0], []], [0]⟩ : LeitnerBox).get_next_item =
        (boxAt ⟨2, [[0], []], [0]⟩ b).head?) ∧
    ((⟨2, [[0], []], [0]⟩ : LeitnerBox).get_next_item = none ↔
      ∀ l ∈ (⟨2, [[0], []], [0]⟩ : LeitnerBox).boxes, l = []) ∧
    ((⟨2, [[0], []], [0]⟩ : LeitnerBox).get_next_item = none ↔
      (⟨2, [[0], []], [0]⟩ : LeitnerBox).item_locations.length = 0) :=
  claim5_next_item ⟨2, [[0], []], [0]⟩
    ⟨2, 1, [], ⟨2, [[0], []], [0]⟩, by decide, by decide, by decide⟩

/-- C6: calling `answer_correct` or `answer_incorrect` with an id at or
beyond the item count is a silent no-op: no failure, and the state —
every box, its internal order, and the reverse index — is returned
unchanged. -/
theorem claim6_out_of_range_noop (s : LeitnerBox) (id : Nat)
    (h : s.item_locations.length ≤ id) :
    s.answer_correct id = some s ∧ s.answer_incorrect id = some s :=
  ⟨answer_correct_oob s id h, answer_incorrect_oob s id h⟩

/-- Witness for C6: id 5 on a one-item scheduler. -/
theorem claim6_witness :
    (⟨2, [[0], []], [0]⟩ : LeitnerBox).answer_correct 5 = some ⟨2, [[0], []], [0]⟩ ∧
    (⟨2, [[0], []], [0]⟩ : LeitnerBox).answer_incorrect 5 = some ⟨2, [[0], []], [0]⟩ :=
  claim6_out_of_range_noop ⟨2, [[0], []], [0]⟩ 5 (by decide)

/-- C3: whenever the two inputs are equal after trimming and lowercasing,
`check_answer` returns `AutoCorrect` with score exactly 1, for every
matcher configuration and every similarity metric — the exact-match branch
short-circuits before any threshold comparison. -/
theorem claim3_exact_match (m : FuzzyMatcher) (jw : List Char → List Char → ℚ)
    (u c : List Char) (h : normalizeAnswer u = normalizeAnswer c) :
    m.check_answer jw u c = MatchResult.AutoCorrect 1 := by
  simp [FuzzyMatcher.check_answer, h]

/-- Witness for C3: a whitespace-only input against the empty string, with
a similarity metric that would score 0. -/
theorem claim3_witness :
    (FuzzyMatcher.new (85 / 100) (10 / 100)).check_answer (fun _ _ => 0)
      [' ', ' '] [] = MatchResult.AutoCorrect 1 :=
  claim3_exact_match (FuzzyMatcher.new (85 / 100) (10 / 100)) (fun _ _ => 0)
    [' ', ' '] [] (by decide)

/-- C4: for every constructed matcher and inputs whose normalized forms
differ, with `sc` the computed similarity of the normalized inputs, the
verdict is `AutoCorrect sc` iff `sc ≥ threshold + margin`, `AutoIncorrect
sc` iff `sc < max (threshold - margin) 0`, and otherwise
`NeedsUserDecision` carrying `sc` together with the original, untrimmed
inputs; the 0.85/0.10 configuration partitions at 0.95 and 0.75. -/
theorem claim4_threshold_partition (t d : ℚ) (jw : List Char → List Char → ℚ)
    (u c : List Char) (h : normalizeAnswer u ≠ normalizeAnswer c) :
    ((FuzzyMatcher.new t d).check_answer jw u c =
        MatchResult.AutoCorrect (jw (normalizeAnswer u) (normalizeAnswer c)) ↔
      (FuzzyMatcher.new t d).upper_bound ≤ jw (normalizeAnswer u) (normalizeAnswer c)) ∧
    ((FuzzyMatcher.new t d).check_answer jw u c =
        MatchResult.AutoIncorrect (jw (normalizeAnswer u) (normalizeAnswer c)) ↔
      jw (normalizeAnswer u) (normalizeAnswer c) < (FuzzyMatcher.new t d).lower_bound) ∧
    ((FuzzyMatcher.new t d).check_answer jw u c =
        MatchResult.NeedsUserDecision (jw (normalizeAnswer u) (normalizeAnswer c)) u c ↔
      ((FuzzyMatcher.new t d).lower_bound ≤ jw (normalizeAnswer u) (normalizeAnswer c) ∧
        jw (normalizeAnswer u) (normalizeAnswer c) < (FuzzyMatcher.new t d).upper_bound)) ∧
    ((FuzzyMatcher.new (85 / 100) (10 / 100)).upper_bound = 95 / 100 ∧
      (FuzzyMatcher.new (85 / 100) (10 / 100)).lower_bound = 75 / 100) := by
  obtain ⟨h1, h2, h3⟩ := check_answer_cases (FuzzyMatcher.new t d) jw u c h
    (new_lower_le_upper t d)
  refine ⟨h1, h2, h3, ?_, ?_⟩
  · rw [FuzzyMatcher.upper_bound,
      show (FuzzyMatcher.new (85 / 100) (10 / 100)).threshold =
        rustClamp (85 / 100) 0 1 from rfl,
      show (FuzzyMatcher.new (85 / 100) (10 / 100)).decision_margin =
        rustClamp (10 / 100) 0 (1 / 2) from rfl,
      rustClamp_eq_self _ _ _ (by norm_num) (by norm_num),
      rustClamp_eq_self _ _ _ (by norm_num) (by norm_num)]
    norm_num
  · rw [FuzzyMatcher.lower_bound,
      show (FuzzyMatcher.new (85 / 100) (10 / 100)).threshold =
        rustClamp (85 / 100) 0 1 from rfl,
      show (FuzzyMatcher.new (85 / 100) (10 / 100)).decision_margin =
        rustClamp (10 / 100) 0 (1 / 2) from rfl,
      rustClamp_eq_self _ _ _ (by norm_num) (by norm_num),
      rustClamp_eq_self _ _ _ (by norm_num) (by norm_num)]
    rw [max_eq_left (by norm_num)]
    norm_num

/-- Witness for C4: distinct one-letter inputs with a similarity metric
scoring 9/10, under the default 0.85/0.10 configuration. -/
theorem claim4_witness :
    ((FuzzyMatcher.new (85 / 100) (10 / 100)).check_answer (fun _ _ => 9 / 10) ['a'] ['b'] =
        MatchResult.AutoCorrect ((fun _ _ => (9 : ℚ) / 10) (normalizeAnswer ['a'])
          (normalizeAnswer ['b'])) ↔
      (FuzzyMatcher.new (85 / 100) (10 / 100)).upper_bound ≤
        (fun _ _ => (9 : ℚ) / 10) (normalizeAnswer ['a']) (normalizeAnswer ['b'])) ∧
    ((FuzzyMatcher.new (85 / 100) (10 / 100)).check_answer (fun _ _ => 9 / 10) ['a'] ['b'] =
        MatchResult.AutoIncorrect ((fun _ _ => (9 : ℚ) / 10) (normalizeAnswer ['a'])
          (normalizeAnswer ['b'])) ↔
      (fun _ _ => (9 : ℚ) / 10) (normalizeAnswer ['a']) (normalizeAnswer ['b']) <
        (FuzzyMatcher.new (85 / 100) (10 / 100)).lower_bound) ∧
    ((FuzzyMatcher.new (85 / 100) (10 / 100)).check_answer (fun _ _ => 9 / 10) ['a'] ['b'] =
        MatchResult.NeedsUserDecision ((fun _ _ => (9 : ℚ) / 10) (normalizeAnswer ['a'])
          (normalizeAnswer ['b'])) ['a'] ['b'] ↔
      ((FuzzyMatcher.new (85 / 100) (10 / 100)).lower_bound ≤
          (fun _ _ => (9 : ℚ) / 10) (normalizeAnswer ['a']) (normalizeAnswer ['b']) ∧
        (fun _ _ => (9 : ℚ) / 10) (normalizeAnswer ['a']) (normalizeAnswer ['b']) <
          (FuzzyMatcher.new (85 / 100) (10 / 100)).upper_bound)) ∧
    ((FuzzyMatcher.new (85 / 100) (10 / 100)).upper_bound = 95 / 100 ∧
      (FuzzyMatcher.new (85 / 100) (10 / 100)).lower_bound = 75 / 100) :=
  claim4_threshold_partition (85 / 100) (10 / 100) (fun _ _ => 9 / 10) ['a'] ['b']
    (by decide)

/-- C8: `FuzzyMatcher::new` never fails: for all arguments, including
out-of-range ones, the stored threshold lies in `[0, 1]` and the stored
decision margin lies in `[0, 1/2]`; out-of-range arguments are clamped to
the nearest bound and in-range arguments are stored unchanged. -/
theorem claim8_clamped_construction (t d : ℚ) :
    (0 ≤ (FuzzyMatcher.new t d).threshold ∧ (FuzzyMatcher.new t d).threshold ≤ 1) ∧
    (0 ≤ (FuzzyMatcher.new t d).decision_margin ∧
      (FuzzyMatcher.new t d).decision_margin ≤ 1 / 2) ∧
    (t < 0 → (FuzzyMatcher.new t d).threshold = 0) ∧
    (1 < t → (FuzzyMatcher.new t d).threshold = 1) ∧
    (0 ≤ t → t ≤ 1 → (FuzzyMatcher.new t d).threshold = t) ∧
    (d < 0 → (FuzzyMatcher.new t d).decision_margin = 0) ∧
    (1 / 2 < d → (FuzzyMatcher.new t d).decision_margin = 1 / 2) ∧
    (0 ≤ d → d ≤ 1 / 2 → (FuzzyMatcher.new t d).decision_margin = d) := by
  have hth : (FuzzyMatcher.new t d).threshold = rustClamp t 0 1 := rfl
  have hdm : (FuzzyMatcher.new t d).decision_margin = rustClamp d 0 (1 / 2) := rfl
  obtain ⟨ha, hb⟩ := rustClamp_mem t 0 1 (by norm_num)
  obtain ⟨hc, hd⟩ := rustClamp_mem d 0 (1 / 2) (by norm_num)
  refine ⟨⟨by rw [hth]; exact ha, by rw [hth]; exact hb⟩,
    ⟨by rw [hdm]; exact hc, by rw [hdm]; exact hd⟩, ?_, ?_, ?_, ?_, ?_, ?_⟩
  · intro h
    rw [hth]
    exact rustClamp_eq_lo t 0 1 h
  · intro h
    rw [hth]
    exact rustClamp_eq_hi t 0 1 (by linarith) h
  · intro ha1 ha2
    rw [hth]
    exact rustClamp_eq_self t 0 1 ha1 ha2
  · intro h
    rw [hdm]
    exact rustClamp_eq_lo d 0 (1 / 2) h
  · intro h
    rw [hdm]
    exact rustClamp_eq_hi d 0 (1 / 2) (by linarith) h
  · intro ha1 ha2
    rw [hdm]
    exact rustClamp_eq_self d 0 (1 / 2) ha1 ha2

/-- Witness for C8: an above-range threshold with a below-range margin. -/
theorem claim8_witness :
    (0 ≤ (FuzzyMatcher.new 3 (-1)).threshold ∧ (FuzzyMatcher.new 3 (-1)).threshold ≤ 1) ∧
    (0 ≤ (FuzzyMatcher.new 3 (-1)).decision_margin ∧
      (FuzzyMatcher.new 3 (-1)).decision_margin ≤ 1 / 2) ∧
    ((3 : ℚ) < 0 → (FuzzyMatcher.new 3 (-1)).threshold = 0) ∧
    ((1 : ℚ) < 3 → (FuzzyMatcher.new 3 (-1)).threshold = 1) ∧
    ((0 : ℚ) ≤ 3 → (3 : ℚ) ≤ 1 → (FuzzyMatcher.new 3 (-1)).threshold = 3) ∧
    ((-1 : ℚ) < 0 → (FuzzyMatcher.new 3 (-1)).decision_margin = 0) ∧
    ((1 : ℚ) / 2 < -1 → (FuzzyMatcher.new 3 (-1)).decision_margin = 1 / 2) ∧
    ((0 : ℚ) ≤ -1 → (-1 : ℚ) ≤ 1 / 2 → (FuzzyMatcher.new 3 (-1)).decision_margin = -1) :=
  claim8_clamped_construction 3 (-1)

/-- C9: starting from the default all-zero statistics, after every finite
sequence of recording calls `correct + incorrect = total_reviewed` and
`user_overrides ≤ total_reviewed` hold, and each single call increases
every counter monotonically. -/
theorem claim9_session_stats (es : List StatsEvent) :
    ((runStats es).correct + (runStats es).incorrect = (runStats es).total_reviewed ∧
      (runStats es).user_overrides ≤ (runStats es).total_reviewed) ∧
    ∀ (t : SessionStats) (e : StatsEvent),
      t.total_reviewed ≤ (applyStats t e).total_reviewed ∧
      t.correct ≤ (applyStats t e).correct ∧
      t.incorrect ≤ (applyStats t e).incorrect ∧
      t.user_overrides ≤ (applyStats t e).user_overrides :=
  ⟨runStats_inv es, applyStats_mono⟩

/-- Counterexample to C7 as stated: `new(0, 1)` panics in Rust — the
constructor's push loop indexes `boxes[0]` in an empty box vector — so
construction does not succeed for every `num_boxes`. -/
theorem claim7_counterexample : LeitnerBox.new 0 1 = none := rfl

/-- C7 (amended to `num_boxes >= 1`): construction succeeds, every finite
sequence of mutating calls (`answer_correct`, `answer_incorrect`, `reset`)
succeeds, and in every reachable state each further mutating call as well
as `all_mastered` and `summary` complete without panicking, with
`mastery_percentage` returning 0 when `total_items = 0`.  The remaining
queries (`get_next_item`, `get_item_box`, `get_box_counts`,
`remaining_items`) are total functions of the state by definition. -/
theorem claim7_no_panic (nb ni : Nat) (hnb : 1 ≤ nb) :
    ∃ s0 : LeitnerBox, LeitnerBox.new nb ni = some s0 ∧
      ∀ es : List LEvent, ∃ s : LeitnerBox, runEvents s0 es = some s ∧
        (∀ id : Nat, ∃ s' : LeitnerBox, s.answer_correct id = some s') ∧
        (∀ id : Nat, ∃ s' : LeitnerBox, s.answer_incorrect id = some s') ∧
        (∃ s' : LeitnerBox, s.reset = some s') ∧
        (∃ mastered : Bool, s.all_mastered = some mastered) ∧
        (∃ sm : LeitnerSummary, s.summary = some sm ∧
          (sm.total_items = 0 → sm.mastery_percentage = 0)) := by
  obtain ⟨s0, hnew, hinv0, -, -⟩ := new_inv nb ni hnb
  refine ⟨s0, hnew, ?_⟩
  intro es
  obtain ⟨s, hrun, hinv, -, -⟩ := runEvents_inv es s0 hinv0
  refine ⟨s, hrun, ?_, ?_, ?_, ?_, ?_⟩
  · intro id
    obtain ⟨s', h', -⟩ := answer_correct_inv s id hinv
    exact ⟨s', h'⟩
  · intro id
    obtain ⟨s', h', -⟩ := answer_incorrect_inv s id hinv
    exact ⟨s', h'⟩
  · obtain ⟨s', h', -⟩ := reset_spec s hinv
    exact ⟨s', h'⟩
  · exact ⟨_, all_mastered_some s hinv⟩
  · obtain ⟨sm, hsm, -, -⟩ := summary_some s hinv
    refine ⟨sm, hsm, fun h0 => ?_⟩
    rw [LeitnerSummary.mastery_percentage, if_pos h0]

/-- Witness for the amended C7 at `new(2, 3)`. -/
theorem claim7_witness :
    ∃ s0 : LeitnerBox, LeitnerBox.new 2 3 = some s0 ∧
      ∀ es : List LEvent, ∃ s : LeitnerBox, runEvents s0 es = some s ∧
        (∀ id : Nat, ∃ s' : LeitnerBox, s.answer_correct id = some s') ∧
        (∀ id : Nat, ∃ s' : LeitnerBox, s.answer_incorrect id = some s') ∧
        (∃ s' : LeitnerBox, s.reset = some s') ∧
        (∃ mastered : Bool, s.all_mastered = some mastered) ∧
        (∃ sm : LeitnerSummary, s.summary = some sm ∧
          (sm.total_items = 0 → sm.mastery_percentage = 0)) :=
  claim7_no_panic 2 3 (by decide)

/-- C10: a scheduler built with zero items and at least one box reports
`all_mastered() = true` (the last box's length 0 equals the item count 0)
while its summary's `mastery_percentage()` is 0 and `get_next_item()` is
`none`. -/
theorem claim10_empty_scheduler (nb : Nat) (hnb : 1 ≤ nb) :
    ∃ s0 : LeitnerBox, LeitnerBox.new nb 0 = some s0 ∧
      s0.all_mastered = some true ∧
      (∃ sm : LeitnerSummary, s0.summary = some sm ∧ sm.mastery_percentage = 0) ∧
      s0.get_next_item = none := by
  obtain ⟨s0, hnew, hinv0, hn0, hl0⟩ := new_inv nb 0 hnb
  have hempty : boxAt s0 (s0.num_boxes - 1) = [] := by
    rw [boxAt]
    cases hbox : s0.boxes[s0.num_boxes - 1]? with
    | none => rfl
    | some l =>
      have hm : l ∈ s0.boxes := List.getElem?_mem hbox
      rw [empty_scheduler_boxes s0 hinv0 hl0 l hm]
      rfl
  refine ⟨s0, hnew, ?_, ?_, ?_⟩
  · rw [all_mastered_some s0 hinv0, hempty, hl0]
    rfl
  · obtain ⟨sm, hsm, htot, -⟩ := summary_some s0 hinv0
    refine ⟨sm, hsm, ?_⟩
    rw [LeitnerSummary.mastery_percentage, if_pos (by omega)]
  · show LeitnerBox.nextFromBoxes s0.boxes = none
    rw [nextFromBoxes_none_iff]
    exact empty_scheduler_boxes s0 hinv0 hl0

/-- Witness for C10 at `new(2, 0)`. -/
theorem claim10_witness :
    ∃ s0 : LeitnerBox, LeitnerBox.new 2 0 = some s0 ∧
      s0.all_mastered = some true ∧
      (∃ sm : LeitnerSummary, s0.summary = some sm ∧ sm.mastery_percentage = 0) ∧
      s0.get_next_item = none :=
  claim10_empty_scheduler 2 (by decide)
